import Mathlib

/-!
A shallow embedding of the input-parsing and command-construction pipeline of
the qmp-shell program (src/qmp-shell.go), together with proofs settling the
specification claims about it.

The embedding covers:
* `splitString` — the quote-aware tokenizer (`(s *QMPShell) splitString`,
  built on Go's `strings.FieldsFunc` with a stateful closure; modern Go
  performs a single left-to-right pass, so the closure acts as a fold).
* the value-coercion switch inside `buildQMPCommand` (`coerceOut`), including
  the `strings.Trim(parts[1], "\"'")` step (`trimQuotes`), the
  `strconv.ParseInt(s, 10, 64)` integer test (`parseInt64`), and the
  `fmt.Println` side effect before `json.Unmarshal` (modelled as a list of
  printed lines).  The JSON parser itself is external library code
  (`encoding/json`), so it is a parameter `p : String → Except String α`.
* `buildQMPCommand` and the HMP wrapping performed by `executeCommand`.
* the HMP completion-vocabulary builder from `NewHMPShell` and the
  prefix-completion callback installed via `line.SetCompleter`.

Go panics (out-of-range indexing) are modelled explicitly: value coercion
returns a `panic` result on the empty string, and the HMP list builder
returns `none` when the Go code would index out of range.
-/

namespace QmpShell

/-! ## Character classes (Go `unicode` package tables) -/

/-- Go `unicode.In(c, unicode.Quotation_Mark)`: the Unicode `Quotation_Mark`
property, transcribed from Go's `unicode` tables. -/
def isQuotationMark (c : Char) : Bool :=
  let n := c.toNat
  decide (n = 0x22 ∨ n = 0x27 ∨ n = 0xAB ∨ n = 0xBB ∨
    (0x2018 ≤ n ∧ n ≤ 0x201F) ∨ n = 0x2039 ∨ n = 0x203A ∨ n = 0x2E42 ∨
    (0x300C ≤ n ∧ n ≤ 0x300F) ∨ (0x301D ≤ n ∧ n ≤ 0x301F) ∨
    (0xFE41 ≤ n ∧ n ≤ 0xFE44) ∨ n = 0xFF02 ∨ n = 0xFF07 ∨
    n = 0xFF62 ∨ n = 0xFF63)

/-- Go `unicode.IsSpace`: the Unicode `White_Space` property, transcribed
from Go's `unicode` tables. -/
def goIsSpace (c : Char) : Bool :=
  let n := c.toNat
  decide ((0x9 ≤ n ∧ n ≤ 0xD) ∨ n = 0x20 ∨ n = 0x85 ∨ n = 0xA0 ∨
    n = 0x1680 ∨ (0x2000 ≤ n ∧ n ≤ 0x200A) ∨ n = 0x2028 ∨ n = 0x2029 ∨
    n = 0x202F ∨ n = 0x205F ∨ n = 0x3000)

/-- Go `unicode.ToLower`, restricted to what can matter for comparisons with
ASCII strings: ASCII uppercase is lowered, and the only two non-ASCII
codepoints whose simple lowercase mapping is ASCII (U+0130 → i, U+212A → k)
are mapped.  Every other codepoint's lowercase mapping is itself non-ASCII,
so modelling it as the identity cannot change any comparison with an ASCII
string or any ASCII prefix test appearing in this program. -/
def goToLowerChar (c : Char) : Char :=
  if 'A' ≤ c ∧ c ≤ 'Z' then Char.ofNat (c.toNat + 32)
  else if c.toNat = 0x130 then 'i'
  else if c.toNat = 0x212A then 'k'
  else c

/-- Go `strings.ToLower` (char-wise simple lowercase). -/
def goToLower (s : String) : String := ⟨s.data.map goToLowerChar⟩

/-! ## The tokenizer (`(s *QMPShell) splitString`) -/

/-- Core loop of `splitString`: Go `strings.FieldsFunc` with the stateful
closure from the source.  State: `q = none` models `lastQuote == rune(0)`
(outside any quote), `q = some qc` models being inside a quote opened by
`qc`.  `acc` is the current token accumulated in reverse.  Fields are
maximal runs of characters the closure does not classify as separators. -/
def splitAux (sep : Char) : Option Char → List Char → List Char → List (List Char)
  | _, [], acc => if acc = [] then [] else [acc.reverse]
  | some q, c :: rest, acc =>
    if c = q then splitAux sep none rest (c :: acc)
    else splitAux sep (some q) rest (c :: acc)
  | none, c :: rest, acc =>
    if isQuotationMark c then splitAux sep (some c) rest (c :: acc)
    else if (if sep = ' ' then goIsSpace c else c = sep) then
      (if acc = [] then splitAux sep none rest []
       else acc.reverse :: splitAux sep none rest [])
    else splitAux sep none rest (c :: acc)

/-- `(s *QMPShell) splitString(str, sep)`. -/
def splitString (s : String) (sep : Char) : List String :=
  (splitAux sep none s.data []).map (fun l => ⟨l⟩)

/-! ## Value coercion inside `buildQMPCommand` -/

/-- `strings.Trim(s, "\x22'")` cutset membership: ASCII double or single
quote. -/
def isCutQuote (c : Char) : Bool := decide (c = '"' ∨ c = '\'')

/-- Go `strings.Trim(s, "\x22'")`: remove ALL leading and trailing
characters of the cutset, independently at each end (no matching
requirement, arbitrarily many layers). -/
def trimQuotes (s : String) : String :=
  ⟨((s.data.dropWhile isCutQuote).reverse.dropWhile isCutQuote).reverse⟩

/-- ASCII decimal digit. -/
def isDigitChar (c : Char) : Bool := decide ('0' ≤ c ∧ c ≤ '9')

/-- Decimal value of a digit list. -/
def digitsVal (l : List Char) : Nat := l.foldl (fun n c => 10 * n + (c.toNat - 48)) 0

/-- Go `strconv.ParseInt(s, 10, 64)` (success cases): an optional leading
`+` or `-`, then one or more ASCII decimal digits and nothing else, with the
resulting value representable in a signed 64-bit integer.  Returns `none`
exactly when Go would return a non-nil error (syntax or range). -/
def parseInt64 (l : List Char) : Option Int :=
  match l with
  | [] => none
  | c :: rest =>
    let sd : Bool × List Char :=
      if c = '+' then (false, rest) else if c = '-' then (true, rest) else (false, l)
    if sd.2 ≠ [] ∧ sd.2.all isDigitChar then
      let n := digitsVal sd.2
      if sd.1 then (if n ≤ 2 ^ 63 then some (-(n : Int)) else none)
      else (if n ≤ 2 ^ 63 - 1 then some (n : Int) else none)
    else none

/-- The typed argument values that can enter the argument map `m` in
`buildQMPCommand`: Go `bool`, `int64`, the `interface{}` produced by
`json.Unmarshal` (abstract type `α`), or `string`. -/
inductive Value (α : Type) where
  | bool (b : Bool)
  | int (i : Int)
  | structured (j : α)
  | str (s : String)
  deriving DecidableEq

instance {α : Type} : Inhabited (Value α) := ⟨.str ""⟩

/-- Outcome of the coercion switch for a single argument value. -/
inductive CoerceResult (α : Type) where
  | ok (v : Value α)
  /-- `fmt.Errorf("JSON parsing error: %s", err)` -/
  | jsonError (msg : String)
  /-- Go runtime panic: `parts[1][0]` with `parts[1]` empty. -/
  | panic
  deriving DecidableEq

/-- The coercion switch of `buildQMPCommand` applied to the already-trimmed
value `s`, over an abstract JSON parser `p` (Go `json.Unmarshal`).  The
second component is the list of lines printed to standard output
(`fmt.Println(parts[1])` prints `s` followed by a newline just before the
structured parse is attempted). -/
def coerceOut {α : Type} (p : String → Except String α) (s : String) :
    CoerceResult α × List String :=
  if goToLower s = "true" then (.ok (.bool true), [])
  else if goToLower s = "false" then (.ok (.bool false), [])
  else
    match s.data with
    | [] => (.panic, [])
    | c :: _ =>
      if c = '{' ∨ c = '[' then
        match p s with
        | .ok v => (.ok (.structured v), [s])
        | .error e => (.jsonError ("JSON parsing error: " ++ e), [s])
      else
        match parseInt64 s.data with
        | some d => (.ok (.int d), [])
        | none => (.ok (.str s), [])

/-- The coercion result alone (without the printed output). -/
def coerce {α : Type} (p : String → Except String α) (s : String) : CoerceResult α :=
  (coerceOut p s).1

/-! ## Command construction (`buildQMPCommand`, `executeCommand`) -/

/-- A QMP command: name plus argument map.  The Go argument map
`map[string]interface{}` is modelled as a finite-support function. -/
structure Command (α : Type) where
  name : String
  args : String → Option (Value α)

/-- Failure modes of `buildQMPCommand`.  Both the no-tokens case and the
malformed key=value case return the very same fixed error value
`ErrBadCommandFormat`; the JSON failure is a distinct error carrying the
parser's message; `panic` models the runtime out-of-range panic. -/
inductive BuildError where
  | badCommandFormat
  | jsonError (msg : String)
  | panic
  deriving DecidableEq

/-- The empty Go map `make(map[string]interface{})`. -/
def emptyArgs {α : Type} : String → Option (Value α) := fun _ => none

/-- Go `m[k] = v`. -/
def insertArg {α : Type} (m : String → Option (Value α)) (k : String) (v : Value α) :
    String → Option (Value α) :=
  fun k' => if k' = k then some v else m k'

/-- The `for _, arg := range cmdargs[1:]` loop of `buildQMPCommand`:
processes argument tokens left to right, accumulating the argument map and
the printed output, stopping at the first failure. -/
def processArgs {α : Type} (p : String → Except String α) :
    List String → (String → Option (Value α)) → List String →
    Except BuildError (String → Option (Value α)) × List String
  | [], m, out => (.ok m, out)
  | a :: rest, m, out =>
    match splitString a '=' with
    | [k, v] =>
      if v = "" then (.error .badCommandFormat, out)
      else
        match coerceOut p (trimQuotes v) with
        | (.ok w, o) => processArgs p rest (insertArg m k w) (out ++ o)
        | (.jsonError e, o) => (.error (.jsonError e), out ++ o)
        | (.panic, o) => (.error .panic, out ++ o)
    | _ => (.error .badCommandFormat, out)

/-- `(s *QMPShell) buildQMPCommand(cmdline)`.  First component: the built
command or the error; second component: the lines printed to standard
output while building. -/
def buildQMPCommand {α : Type} (p : String → Except String α) (line : String) :
    Except BuildError (Command α) × List String :=
  match splitString line ' ' with
  | [] => (.error .badCommandFormat, [])
  | name :: args =>
    match processArgs p args emptyArgs [] with
    | (.ok m, out) => (.ok ⟨name, m⟩, out)
    | (.error e, out) => (.error e, out)

/-- The HMP wrapping in `executeCommand`:
`fmt.Sprintf("human-monitor-command command-line='%s'", cmdline)`. -/
def hmpWrap (line : String) : String :=
  "human-monitor-command command-line='" ++ line ++ "'"

/-- Command construction as performed by `executeCommand` when `isHMP` is
set: wrap, then build. -/
def buildHMP {α : Type} (p : String → Except String α) (line : String) :
    Except BuildError (Command α) × List String :=
  buildQMPCommand p (hmpWrap line)

/-- Name of a successfully built command. -/
def cmdName? {α : Type} : Except BuildError (Command α) → Option String
  | .ok c => some c.name
  | .error _ => none

/-- Argument lookup inside a successfully built command. -/
def argLookup {α : Type} : Except BuildError (Command α) → String → Option (Option (Value α))
  | .ok c, k => some (c.args k)
  | .error _, _ => none

/-- The error of a failed build, if any. -/
def errOf {α : Type} : Except BuildError (Command α) → Option BuildError
  | .ok _ => none
  | .error e => some e

/-- Key/value split of one argument token, exactly as checked by the source:
`splitString(arg, '=')` must yield two parts with a non-empty second part.
(`splitString` never produces empty fields, so the non-emptiness check is
vacuous, but it is kept from the source.) -/
def argKV (a : String) : Option (String × String) :=
  match splitString a '=' with
  | [k, v] => if v = "" then none else some (k, v)
  | _ => none

/-- The coerced value of an argument value token, when coercion succeeds. -/
def coOk {α : Type} (p : String → Except String α) (v : String) : Option (Value α) :=
  match coerce p (trimQuotes v) with
  | .ok w => some w
  | _ => none

/-- One argument token processes without failure. -/
def argOkB {α : Type} (p : String → Except String α) (a : String) : Bool :=
  match argKV a with
  | some kv => (coOk p kv.2).isSome
  | none => false

/-- Effect of a list of well-behaved argument tokens on the argument map. -/
def applyPre {α : Type} (p : String → Except String α) (pre : List String)
    (m : String → Option (Value α)) : String → Option (Value α) :=
  pre.foldl
    (fun m a =>
      match argKV a with
      | some kv => insertArg m kv.1 ((coOk p kv.2).get!)
      | none => m) m

/-! ## Completion callback (`line.SetCompleter`) -/

/-- The completion callback installed by both `NewQMPShell` and
`NewHMPShell`: keep the entries having `strings.ToLower(line)` as a
(case-sensitive) prefix, in index order. -/
def completer (cmdlist : List String) (input : String) : List String :=
  cmdlist.filter (fun n => (goToLower input).data.isPrefixOf n.data)

/-! ## HMP completion vocabulary (`NewHMPShell`) -/

/-- Core loop of Go `strings.Fields` (split on runs of `unicode.IsSpace`,
dropping empty fields). -/
def fieldsAux (pr : Char → Bool) : List Char → List Char → List (List Char)
  | [], acc => if acc = [] then [] else [acc.reverse]
  | c :: rest, acc =>
    if pr c then
      (if acc = [] then fieldsAux pr rest [] else acc.reverse :: fieldsAux pr rest [])
    else fieldsAux pr rest (c :: acc)

/-- Go `strings.Fields`. -/
def goFields (s : String) : List String :=
  (fieldsAux goIsSpace s.data []).map (fun l => ⟨l⟩)

/-- Go `strings.Split(s, sep)` for a single-character separator: split on
every occurrence, keeping empty parts. -/
def splitOnChar (sep : Char) : List Char → List (List Char)
  | [] => [[]]
  | c :: rest =>
    match splitOnChar sep rest with
    | [] => [[]]
    | f :: fs => if c = sep then [] :: f :: fs else (c :: f) :: fs

/-- Go `strings.Split(s, "\r\n")`. -/
def splitCRLF : List Char → List (List Char)
  | [] => [[]]
  | '\r' :: '\n' :: rest => [] :: splitCRLF rest
  | c :: rest =>
    match splitCRLF rest with
    | [] => [[]]
    | f :: fs => (c :: f) :: fs

/-- One line of the `help` reply, parsed by the command-list loop of
`NewHMPShell` into its completion entries.  `none` models a Go runtime
panic: `strings.Fields(line)[0]` on a line with no fields, or `nn[1]` when
the alias split yields a single one-character part. -/
def cmdListLineEntries (line : String) : Option (List String) :=
  match line.data with
  | [] => some []
  | c :: _ =>
    if c = '[' ∨ c = '\t' then some []
    else
      match goFields line with
      | [] => none
      | f :: _ =>
        if f = "info" then some []
        else if line.data.contains '|' then
          match splitOnChar '|' f.data with
          | [] => none
          | n0 :: rest =>
            if n0.length = 1 then
              match rest with
              | [] => none
              | n1 :: _ => some [⟨n1⟩, "help " ++ ⟨n1⟩]
            else some [⟨n0⟩, "help " ++ ⟨n0⟩]
        else some [f, "help " ++ f]

/-- One line of the `info` reply, parsed by the status-list loop of
`NewHMPShell` into its completion entries. -/
def statusListLineEntries (line : String) : List String :=
  if line.data ≠ [] ∧ (goFields line).length ≥ 2 then
    match goFields line with
    | _ :: f :: _ => ["info " ++ f]
    | _ => []
  else []

/-- Byte-wise lexicographic order of Go strings.  On valid UTF-8, byte-wise
lexicographic comparison coincides with codepoint-wise comparison. -/
def lexLe : List Char → List Char → Bool
  | [], _ => true
  | _ :: _, [] => false
  | a :: as, b :: bs =>
    if a.toNat < b.toNat then true
    else if b.toNat < a.toNat then false
    else lexLe as bs

/-- Go string order, as used by `sort.Strings`. -/
def goLe (a b : String) : Prop := lexLe a.data b.data = true

instance : DecidableRel goLe := fun a b => inferInstanceAs (Decidable (_ = true))

/-- The HMP completion vocabulary built by `NewHMPShell` from the raw text
of the `help` reply and the `info` reply: the command-list entries, then the
status-list entries, sorted with `sort.Strings` (no deduplication).
`sort.Strings` is modelled by insertion sort; since the order is
antisymmetric, every correct sort produces this same list.  `none` models a
Go runtime panic while parsing. -/
def buildHMPCmdList (helpReply statusReply : String) : Option (List String) := do
  let cmdEntries ← ((splitCRLF helpReply.data).map (fun l => cmdListLineEntries ⟨l⟩)).mapM id
  let statusEntries := (splitCRLF statusReply.data).map (fun l => statusListLineEntries ⟨l⟩)
  return List.insertionSort goLe (cmdEntries.flatten ++ statusEntries.flatten)

/-! ## Definitions taken from the claims' words (for refutation/amendment) -/

/-- A fixed concrete parser instance used to instantiate the abstract JSON
parser in witnesses and counterexamples whose content does not depend on the
parser. -/
def pU : String → Except String Unit := fun _ => Except.error "invalid character"

/-- Case-insensitive string equality, via lowercasing both sides. -/
def ciEq (a b : String) : Prop := goToLower a = goToLower b

instance : DecidableRel ciEq := fun a b => inferInstanceAs (Decidable (_ = _))

/-- Taken from claim C1's words: the whole string parses as a base-10
signed 64-bit integer with an optional leading minus sign only (no plus
sign), no surrounding whitespace. -/
def intOfStringMinus? (s : String) : Option Int :=
  match s.data with
  | [] => none
  | c :: r =>
    let sd : Bool × List Char := if c = '-' then (true, r) else (false, c :: r)
    if sd.2 ≠ [] ∧ sd.2.all isDigitChar then
      let v : Int := if sd.1 then -(digitsVal sd.2 : Int) else (digitsVal sd.2 : Int)
      if -(2 ^ 63) ≤ v ∧ v ≤ 2 ^ 63 - 1 then some v else none
    else none

/-- Taken from the amended claim C1's words: optional leading `+` or `-`. -/
def int64OfString? (s : String) : Option Int :=
  match s.data with
  | [] => none
  | c :: r =>
    let sd : Bool × List Char :=
      if c = '+' then (false, r) else if c = '-' then (true, r) else (false, c :: r)
    if sd.2 ≠ [] ∧ sd.2.all isDigitChar then
      let v : Int := if sd.1 then -(digitsVal sd.2 : Int) else (digitsVal sd.2 : Int)
      if -(2 ^ 63) ≤ v ∧ v ≤ 2 ^ 63 - 1 then some v else none
    else none

/-- First character is `{` or `[`. -/
def headIsBrace (s : String) : Bool :=
  match s.data with
  | c :: _ => decide (c = '{' ∨ c = '[')
  | [] => false

/-- The coercion rule exactly as claim C1 states it (ordered first-match,
minus sign only, total on every string — the claim's rule sends the empty
string to `String("")`). -/
def coerceClaim {α : Type} (p : String → Except String α) (s : String) : CoerceResult α :=
  if ciEq s "true" then .ok (.bool true)
  else if ciEq s "false" then .ok (.bool false)
  else if headIsBrace s then
    match p s with
    | .ok v => .ok (.structured v)
    | .error e => .jsonError ("JSON parsing error: " ++ e)
  else
    match intOfStringMinus? s with
    | some i => .ok (.int i)
    | none => .ok (.str s)

/-- The coercion rule as amended: like the claim's rule but the integer step
accepts an optional leading `+` or `-` (Go `strconv.ParseInt` semantics);
stated for non-empty strings (on the empty string the code panics). -/
def coerceSpecA {α : Type} (p : String → Except String α) (s : String) : CoerceResult α :=
  if ciEq s "true" then .ok (.bool true)
  else if ciEq s "false" then .ok (.bool false)
  else if headIsBrace s then
    match p s with
    | .ok v => .ok (.structured v)
    | .error e => .jsonError ("JSON parsing error: " ++ e)
  else
    match int64OfString? s with
    | some i => .ok (.int i)
    | none => .ok (.str s)

/-- Taken from claim C4's words: strip exactly one layer of wrapping quotes,
and only when the value is wrapped in a matching pair of ASCII single or
double quotes. -/
def stripOneLayer (s : String) : String :=
  match s.data with
  | c :: (d :: ds) =>
    let l := c :: d :: ds
    if isCutQuote c ∧ l.getLastD ' ' = c then ⟨(d :: ds).dropLast⟩ else s
  | _ => s

/-- Tokenizer state as described in spec §4.1. -/
inductive TkState where
  | normal
  | insideQuote (q : Char)

/-- The tokenizer exactly as spec §4.1 describes it, over an arbitrary
separator predicate: single left-to-right pass with `normal` /
`insideQuote` states, separators end tokens (empty tokens discarded), any
Unicode quotation mark opens a span closed only by the same codepoint, quote
characters retained. -/
def specTokAux (isSep : Char → Bool) : TkState → List Char → List Char → List (List Char)
  | _, [], tok => if tok = [] then [] else [tok]
  | .normal, c :: rest, tok =>
    if isQuotationMark c then specTokAux isSep (.insideQuote c) rest (tok ++ [c])
    else if isSep c then
      (if tok = [] then specTokAux isSep .normal rest []
       else tok :: specTokAux isSep .normal rest [])
    else specTokAux isSep .normal rest (tok ++ [c])
  | .insideQuote q, c :: rest, tok =>
    if c = q then specTokAux isSep .normal rest (tok ++ [c])
    else specTokAux isSep (.insideQuote q) rest (tok ++ [c])

/-- Spec-§4.1 tokenizer on strings. -/
def specTokenize (isSep : Char → Bool) (s : String) : List String :=
  (specTokAux isSep .normal s.data []).map (fun l => ⟨l⟩)

/-- The tokenizer exactly as claim C5 states it: a token ends exactly at
characters EQUAL to the separator (outside quoted spans). -/
def splitStringClaim (s : String) (sep : Char) : List String :=
  specTokenize (fun c => c = sep) s

end QmpShell
namespace QmpShell

/-! ## Order lemmas for `sort.Strings` -/

theorem lexLe_cons_iff {a b : Char} {as bs : List Char} :
    lexLe (a :: as) (b :: bs) = true ↔
      a.toNat < b.toNat ∨ (a.toNat = b.toNat ∧ lexLe as bs = true) := by
  simp only [lexLe]
  split_ifs with h1 h2
  · simp [h1]
  · simp only [Bool.false_eq_true, false_iff]
    rintro (h | ⟨h, _⟩) <;> omega
  · have : a.toNat = b.toNat := Nat.le_antisymm (Nat.le_of_not_lt h2) (Nat.le_of_not_lt h1)
    simp [this, Nat.lt_irrefl]

theorem lexLe_total : ∀ a b : List Char, lexLe a b = true ∨ lexLe b a = true
  | [], _ => by left; rfl
  | _ :: _, [] => by right; rfl
  | a :: as, b :: bs => by
    rcases Nat.lt_trichotomy a.toNat b.toNat with h | h | h
    · left; exact lexLe_cons_iff.2 (Or.inl h)
    · rcases lexLe_total as bs with ih | ih
      · left; exact lexLe_cons_iff.2 (Or.inr ⟨h, ih⟩)
      · right; exact lexLe_cons_iff.2 (Or.inr ⟨h.symm, ih⟩)
    · right; exact lexLe_cons_iff.2 (Or.inl h)

theorem lexLe_trans : ∀ a b c : List Char,
    lexLe a b = true → lexLe b c = true → lexLe a c = true
  | [], _, _ => by intro _ _; rfl
  | _ :: _, [], _ => by intro h _; simp [lexLe] at h
  | _ :: _, _ :: _, [] => by intro _ h; simp [lexLe] at h
  | a :: as, b :: bs, c :: cs => by
    intro h1 h2
    rcases lexLe_cons_iff.1 h1 with hab | ⟨hab, hab'⟩ <;>
      rcases lexLe_cons_iff.1 h2 with hbc | ⟨hbc, hbc'⟩
    · exact lexLe_cons_iff.2 (Or.inl (Nat.lt_trans hab hbc))
    · exact lexLe_cons_iff.2 (Or.inl (hbc ▸ hab))
    · exact lexLe_cons_iff.2 (Or.inl (hab ▸ hbc))
    · exact lexLe_cons_iff.2 (Or.inr ⟨hab.trans hbc, lexLe_trans as bs cs hab' hbc'⟩)

instance : IsTotal String goLe := ⟨fun a b => lexLe_total a.data b.data⟩

instance : IsTrans String goLe := ⟨fun a b c => lexLe_trans a.data b.data c.data⟩

end QmpShell
namespace QmpShell

/-! ## Generic list helpers -/

theorem find?_append {β : Type} (l₁ l₂ : List β) (f : β → Bool) :
    (l₁ ++ l₂).find? f =
      match l₁.find? f with
      | some x => some x
      | none => l₂.find? f := by
  induction l₁ with
  | nil => simp
  | cons a l ih =>
    by_cases h : f a
    · simp [List.find?_cons, h]
    · simp only [List.cons_append, List.find?_cons, h]
      simp only [Bool.false_eq_true, if_false] at *
      exact ih

theorem find?_unique {β : Type} {l : List β} {f : β → Bool} {x : β}
    (hx : x ∈ l) (hfx : f x = true) (huniq : ∀ y ∈ l, f y = true → y = x) :
    l.find? f = some x := by
  induction l with
  | nil => cases hx
  | cons a l ih =>
    by_cases h : f a
    · have hax : a = x := huniq a (List.mem_cons_self a l) h
      subst hax
      simp [List.find?_cons, h]
    · simp only [List.find?_cons, h, Bool.false_eq_true, if_false]
      rcases List.mem_cons.1 hx with rfl | hx'
      · exact absurd hfx (by simp [h])
      · exact ih hx' (fun y hy => huniq y (List.mem_cons_of_mem a hy))

end QmpShell
namespace QmpShell

/-! ## Properties of the argument-processing loop -/

theorem argKV_eq_some {a k v : String} (h : argKV a = some (k, v)) :
    splitString a '=' = [k, v] ∧ v ≠ "" := by
  unfold argKV at h
  rcases hs : splitString a '=' with _ | ⟨x, _ | ⟨y, _ | _⟩⟩ <;> rw [hs] at h <;>
    simp only at h
  · cases h
  · cases h
  · by_cases hy : y = ""
    · rw [if_pos hy] at h; cases h
    · rw [if_neg hy] at h
      injection h with h'
      rw [Prod.mk.injEq] at h'
      obtain ⟨rfl, rfl⟩ := h'
      exact ⟨rfl, hy⟩
  · cases h

theorem processArgs_cons_ok {α : Type} {p : String → Except String α}
    {a k v : String} {w : Value α} (rest : List String)
    (m : String → Option (Value α)) (out : List String)
    (hkv : argKV a = some (k, v))
    (hco : coerce p (trimQuotes v) = .ok w) :
    processArgs p (a :: rest) m out =
      processArgs p rest (insertArg m k w) (out ++ (coerceOut p (trimQuotes v)).2) := by
  obtain ⟨hs, hv⟩ := argKV_eq_some hkv
  have hpair : coerceOut p (trimQuotes v) = (.ok w, (coerceOut p (trimQuotes v)).2) := by
    rw [← hco]; rfl
  simp only [processArgs, hs]
  rw [if_neg hv, hpair]

theorem processArgs_out_mono {α : Type} (p : String → Except String α) :
    ∀ (args : List String) (m : String → Option (Value α)) (out : List String),
      ∃ t, (processArgs p args m out).2 = out ++ t
  | [], m, out => ⟨[], by simp [processArgs]⟩
  | a :: rest, m, out => by
    rcases hs : splitString a '=' with _ | ⟨x, _ | ⟨y, _ | _⟩⟩
    · exact ⟨[], by simp [processArgs, hs]⟩
    · exact ⟨[], by simp [processArgs, hs]⟩
    · by_cases hy : y = ""
      · exact ⟨[], by simp [processArgs, hs, hy]⟩
      · simp only [processArgs, hs]
        rw [if_neg hy]
        rcases hco : coerceOut p (trimQuotes y) with ⟨r, o⟩
        cases r with
        | ok w =>
          obtain ⟨t, ht⟩ := processArgs_out_mono p rest (insertArg m x w) (out ++ o)
          exact ⟨o ++ t, by simp only [ht, List.append_assoc]⟩
        | jsonError e => exact ⟨o, rfl⟩
        | panic => exact ⟨o, rfl⟩
    · exact ⟨[], by simp [processArgs, hs]⟩

theorem processArgs_pre {α : Type} (p : String → Except String α) :
    ∀ (pre rest : List String) (m : String → Option (Value α)) (out : List String),
      (∀ a ∈ pre, argOkB p a = true) →
      ∃ t, processArgs p (pre ++ rest) m out =
        processArgs p rest (applyPre p pre m) (out ++ t)
  | [], rest, m, out, _ => ⟨[], by simp [applyPre]⟩
  | a :: pre', rest, m, out, h => by
    have ha : argOkB p a = true := h a (List.mem_cons_self a pre')
    rcases hkv : argKV a with _ | ⟨k, v⟩
    · simp only [argOkB, hkv] at ha
      exact Bool.noConfusion ha
    · simp only [argOkB, hkv] at ha
      rcases hw : coOk p v with _ | w
      · rw [hw] at ha; cases ha
      · have hco : coerce p (trimQuotes v) = .ok w := by
          unfold coOk at hw
          rcases hc : coerce p (trimQuotes v) with w' | e | _ <;> rw [hc] at hw <;>
            simp only at hw
          · injection hw with hw'; rw [hw']
          · cases hw
          · cases hw
        rw [List.cons_append, processArgs_cons_ok (pre' ++ rest) m out hkv hco]
        obtain ⟨t, ht⟩ := processArgs_pre p pre' rest (insertArg m k w)
          (out ++ (coerceOut p (trimQuotes v)).2)
          (fun b hb => h b (List.mem_cons_of_mem a hb))
        refine ⟨(coerceOut p (trimQuotes v)).2 ++ t, ?_⟩
        rw [ht]
        have happ : applyPre p (a :: pre') m = applyPre p pre' (insertArg m k w) := by
          unfold applyPre
          simp only [List.foldl_cons, hkv, hw, Option.get!]
        rw [happ, List.append_assoc]

end QmpShell
namespace QmpShell

/-! ## The argument map as a last-occurrence lookup -/

theorem find?_append_some {β : Type} {l₁ : List β} (l₂ : List β) {f : β → Bool}
    {x : β} (h : l₁.find? f = some x) : (l₁ ++ l₂).find? f = some x := by
  rw [find?_append, h]

theorem find?_append_none {β : Type} {l₁ : List β} (l₂ : List β) {f : β → Bool}
    (h : l₁.find? f = none) : (l₁ ++ l₂).find? f = l₂.find? f := by
  rw [find?_append, h]

theorem coOk_get!_eq {α : Type} {p : String → Except String α} {v : String}
    (h : (coOk p v).isSome = true) : some ((coOk p v).get!) = coOk p v := by
  rcases hc : coOk p v with _ | w
  · rw [hc] at h; exact Bool.noConfusion h
  · rfl

theorem argsOk_of_maps {α : Type} (p : String → Except String α) :
    ∀ (args : List String) (pairs : List (String × String)),
      args.map argKV = pairs.map some →
      (∀ kv ∈ pairs, (coOk p kv.2).isSome = true) →
      ∀ a ∈ args, argOkB p a = true
  | [], [], _, _ => by intro a ha; cases ha
  | [], _ :: _, h, _ => by cases h
  | _ :: _, [], h, _ => by cases h
  | a :: args', kv :: pairs', h, hok => by
    simp only [List.map_cons, List.cons.injEq] at h
    intro b hb
    rcases List.mem_cons.1 hb with rfl | hb'
    · simp only [argOkB, h.1]
      exact hok kv (List.mem_cons_self kv pairs')
    · exact argsOk_of_maps p args' pairs' h.2
        (fun x hx => hok x (List.mem_cons_of_mem kv hx)) b hb'

theorem applyPre_lookup {α : Type} (p : String → Except String α) :
    ∀ (args : List String) (pairs : List (String × String)),
      args.map argKV = pairs.map some →
      (∀ kv ∈ pairs, (coOk p kv.2).isSome = true) →
      ∀ (m : String → Option (Value α)) (k : String),
        applyPre p args m k =
          match pairs.reverse.find? (fun kv => kv.1 == k) with
          | some kv => coOk p kv.2
          | none => m k
  | [], [], _, _ => by intro m k; simp [applyPre]
  | [], _ :: _, h, _ => by cases h
  | _ :: _, [], h, _ => by cases h
  | a :: args', kv :: pairs', h, hok => by
    simp only [List.map_cons, List.cons.injEq] at h
    intro m k
    have hstep : applyPre p (a :: args') m =
        applyPre p args' (insertArg m kv.1 ((coOk p kv.2).get!)) := by
      unfold applyPre
      simp only [List.foldl_cons, h.1]
    rw [hstep, applyPre_lookup p args' pairs' h.2
      (fun x hx => hok x (List.mem_cons_of_mem kv hx))]
    rcases hf : pairs'.reverse.find? (fun kv => kv.1 == k) with _ | kv'
    · rw [hf, List.reverse_cons, find?_append_none _ hf, List.find?_singleton]
      by_cases hk : (kv.1 == k) = true
      · rw [if_pos hk]
        show insertArg m kv.1 ((coOk p kv.2).get!) k = coOk p kv.2
        unfold insertArg
        rw [if_pos (beq_iff_eq.1 hk).symm]
        exact coOk_get!_eq (hok kv (List.mem_cons_self kv pairs'))
      · rw [if_neg hk]
        show insertArg m kv.1 ((coOk p kv.2).get!) k = m k
        unfold insertArg
        rw [if_neg (fun he => hk (beq_iff_eq.2 he.symm))]
    · rw [hf, List.reverse_cons, find?_append_some _ hf]

/-! ## Last-occurrence lookup under permutation with distinct keys -/

theorem find?_rev_perm {pairs pairs' : List (String × String)}
    (hperm : pairs.Perm pairs') (hnd : (pairs.map Prod.fst).Nodup) (k : String) :
    pairs.reverse.find? (fun kv => kv.1 == k) =
      pairs'.reverse.find? (fun kv => kv.1 == k) := by
  by_cases hex : ∃ kv, kv ∈ pairs ∧ kv.1 = k
  · obtain ⟨kv, hmem, hk⟩ := hex
    have huniq : ∀ y ∈ pairs, y.1 = k → y = kv := by
      intro y hy hyk
      exact List.inj_on_of_nodup_map hnd hy hmem (by rw [hyk, hk])
    rw [find?_unique (f := fun kv => kv.1 == k) (x := kv) (List.mem_reverse.2 hmem)
        (beq_iff_eq.2 hk)
        (fun y hy hfy => huniq y (List.mem_reverse.1 hy) (beq_iff_eq.1 hfy))]
    rw [find?_unique (f := fun kv => kv.1 == k) (x := kv)
        (List.mem_reverse.2 (hperm.mem_iff.1 hmem))
        (beq_iff_eq.2 hk)
        (fun y hy hfy => huniq y (hperm.mem_iff.2 (List.mem_reverse.1 hy))
          (beq_iff_eq.1 hfy))]
  · push_neg at hex
    rw [List.find?_eq_none.2 (fun y hy => by
      simpa using hex y (List.mem_reverse.1 hy))]
    rw [List.find?_eq_none.2 (fun y hy => by
      simpa using hex y (hperm.mem_iff.2 (List.mem_reverse.1 hy)))]

/-! ## Build-level helpers -/

theorem build_of_tokens {α : Type} (p : String → Except String α)
    {line name : String} {args : List String}
    (h : splitString line ' ' = name :: args) :
    buildQMPCommand p line =
      (match (processArgs p args emptyArgs []).1 with
       | .ok m => .ok ⟨name, m⟩
       | .error e => .error e,
       (processArgs p args emptyArgs []).2) := by
  simp only [buildQMPCommand, h]
  rcases hp : processArgs p args emptyArgs [] with ⟨r, o⟩
  cases r <;> rfl

end QmpShell
namespace QmpShell

/-- Claim C2: for every well-formed line `name k1=v1 ... kN=vN` (name
non-empty token list, each argument token splitting on `=` into exactly two
non-empty parts, each value coercible), `buildQMPCommand` yields a command
whose name is the first token verbatim and whose argument mapping sends each
key to the coerced value of its last occurrence (later duplicates
overwrite), contains exactly the given keys, and — when the keys are
distinct — is unchanged under permuting the argument tokens. -/
theorem c2_build_wellformed {α : Type} (p : String → Except String α)
    (line line' name : String) (args args' : List String)
    (pairs pairs' : List (String × String))
    (h1 : splitString line ' ' = name :: args)
    (h2 : args.map argKV = pairs.map some)
    (h3 : ∀ kv ∈ pairs, (coOk p kv.2).isSome = true) :
    cmdName? (buildQMPCommand p line).1 = some name ∧
    (∀ k, argLookup (buildQMPCommand p line).1 k =
      some (match pairs.reverse.find? (fun kv => kv.1 == k) with
            | some kv => coOk p kv.2
            | none => none)) ∧
    (∀ k, (pairs.reverse.find? (fun kv => kv.1 == k)).isSome = true ↔
      k ∈ pairs.map Prod.fst) ∧
    ((pairs.map Prod.fst).Nodup → pairs.Perm pairs' →
      splitString line' ' ' = name :: args' → args'.map argKV = pairs'.map some →
      cmdName? (buildQMPCommand p line').1 = some name ∧
      ∀ k, argLookup (buildQMPCommand p line').1 k =
        argLookup (buildQMPCommand p line).1 k) := by
  have hall : ∀ a ∈ args, argOkB p a = true := argsOk_of_maps p args pairs h2 h3
  obtain ⟨t, ht⟩ := processArgs_pre p args [] emptyArgs [] hall
  rw [List.append_nil] at ht
  have hmain : ∀ {l : String}, splitString l ' ' = name :: args →
      cmdName? (buildQMPCommand p l).1 = some name ∧
      ∀ k, argLookup (buildQMPCommand p l).1 k =
        some (match pairs.reverse.find? (fun kv => kv.1 == k) with
              | some kv => coOk p kv.2
              | none => none) := by
    intro l hl
    rw [build_of_tokens p hl, ht]
    refine ⟨rfl, fun k => ?_⟩
    show some (applyPre p args emptyArgs k) = _
    rw [applyPre_lookup p args pairs h2 h3 emptyArgs k]
    rcases pairs.reverse.find? (fun kv : String × String => kv.1 == k) with _ | kv <;> rfl
  refine ⟨(hmain h1).1, (hmain h1).2, fun k => ?_, fun hnd hperm h1' h2' => ?_⟩
  · rw [List.find?_isSome]
    constructor
    · rintro ⟨x, hx, hfx⟩
      exact List.mem_map.2 ⟨x, List.mem_reverse.1 hx, beq_iff_eq.1 hfx⟩
    · intro hmem
      obtain ⟨x, hx, hk⟩ := List.mem_map.1 hmem
      exact ⟨x, List.mem_reverse.2 hx, beq_iff_eq.2 hk⟩
  · have hall' : ∀ kv ∈ pairs', (coOk p kv.2).isSome = true :=
      fun kv hkv => h3 kv (hperm.mem_iff.2 hkv)
    obtain ⟨t', ht'⟩ := processArgs_pre p args' [] emptyArgs []
      (argsOk_of_maps p args' pairs' h2' hall')
    rw [List.append_nil] at ht'
    have hmain' : cmdName? (buildQMPCommand p line').1 = some name ∧
        ∀ k, argLookup (buildQMPCommand p line').1 k =
          some (match pairs'.reverse.find? (fun kv => kv.1 == k) with
                | some kv => coOk p kv.2
                | none => none) := by
      rw [build_of_tokens p h1', ht']
      refine ⟨rfl, fun k => ?_⟩
      show some (applyPre p args' emptyArgs k) = _
      rw [applyPre_lookup p args' pairs' h2' hall' emptyArgs k]
      rcases pairs'.reverse.find? (fun kv : String × String => kv.1 == k) with _ | kv <;> rfl
    refine ⟨hmain'.1, fun k => ?_⟩
    rw [hmain'.2 k, (hmain h1).2 k, find?_rev_perm hperm hnd k]

end QmpShell
namespace QmpShell

theorem c2_build_wellformed_witness :
    cmdName? (buildQMPCommand pU "cmd a=1 b=x").1 = some "cmd" ∧
    argLookup (buildQMPCommand pU "cmd a=1 b=x").1 "a" = some (some (Value.int 1)) ∧
    argLookup (buildQMPCommand pU "cmd b=x a=1").1 "a" =
      argLookup (buildQMPCommand pU "cmd a=1 b=x").1 "a" := by
  have H := c2_build_wellformed pU "cmd a=1 b=x" "cmd b=x a=1" "cmd"
    ["a=1", "b=x"] ["b=x", "a=1"] [("a", "1"), ("b", "x")] [("b", "x"), ("a", "1")]
    (by decide) (by decide) (by decide)
  refine ⟨H.1, ?_, ?_⟩
  · rw [H.2.1 "a"]; decide
  · exact (H.2.2.2 (by decide) (by decide) (by decide) (by decide)).2 "a"

/-! ## Integer-parsing equivalences -/

theorem int_range_pos (n : Nat) :
    (-(2 ^ 63 : Int) ≤ (n : Int) ∧ (n : Int) ≤ 2 ^ 63 - 1) ↔ n ≤ 2 ^ 63 - 1 := by
  omega

theorem int_range_neg (n : Nat) :
    (-(2 ^ 63 : Int) ≤ -(n : Int) ∧ -(n : Int) ≤ 2 ^ 63 - 1) ↔ n ≤ 2 ^ 63 := by
  omega

theorem parseInt64_eq_spec : ∀ l : List Char, parseInt64 l = int64OfString? ⟨l⟩
  | [] => rfl
  | c :: rest => by
    by_cases hp : c = '+'
    · subst hp
      simp only [parseInt64, int64OfString?]
      simp only [if_true, Char.reduceEq, if_false, Bool.false_eq_true]
      simp only [int_range_pos]
    · by_cases hm : c = '-'
      · subst hm
        simp only [parseInt64, int64OfString?]
        simp only [if_true, Char.reduceEq, if_false, Bool.false_eq_true]
        simp only [int_range_neg]
      · simp only [parseInt64, int64OfString?]
        simp only [if_neg hp, if_neg hm, if_false, Bool.false_eq_true]
        simp only [int_range_pos]

end QmpShell
namespace QmpShell

/-- Claim C1 (amended): for every NON-EMPTY raw argument value (after quote
trimming), the coercion decision follows the ordered first-match rule of the
claim, except that the integer step accepts an optional leading `+` as well
as `-` (Go `strconv.ParseInt` semantics); on the empty raw value the code
panics instead of producing `String("")`. -/
theorem c1_coerce_rule {α : Type} (p : String → Except String α) (s : String)
    (h : s ≠ "") : coerce p s = coerceSpecA p s := by
  have hd : s.data ≠ [] := by
    intro he
    exact h ((congrArg String.mk he).trans rfl)
  obtain ⟨c, cs, hcs⟩ : ∃ c cs, s.data = c :: cs := by
    rcases hl : s.data with _ | ⟨c, cs⟩
    · exact absurd hl hd
    · exact ⟨c, cs, rfl⟩
  have hs' : s = ⟨c :: cs⟩ := by
    cases s
    exact congrArg String.mk hcs
  unfold coerce coerceOut coerceSpecA ciEq
  have ht : goToLower "true" = "true" := rfl
  have hfa : goToLower "false" = "false" := rfl
  simp only [ht, hfa]
  by_cases h1 : goToLower s = "true"
  · simp [h1]
  · rw [if_neg h1, if_neg h1]
    by_cases h2 : goToLower s = "false"
    · simp [h2]
    · rw [if_neg h2, if_neg h2]
      simp only [hcs, headIsBrace, decide_eq_true_eq]
      by_cases h3 : c = '{' ∨ c = '['
      · rw [if_pos h3, if_pos h3]
        rcases p s with v | e <;> rfl
      · rw [if_neg h3, if_neg h3]
        have hint : parseInt64 (c :: cs) = int64OfString? s := by
          rw [parseInt64_eq_spec (c :: cs), hs']
        rw [hint]
        rcases int64OfString? s with _ | d <;> rfl

theorem c1_coerce_rule_witness :
    ("+42" : String) ≠ "" ∧ coerce pU "+42" = coerceSpecA pU "+42" ∧
    coerce pU "+42" = .ok (.int 42) :=
  ⟨by decide, c1_coerce_rule pU "+42" (by decide), by decide⟩

/-- Claim C1 as stated is false on the code: the value `+42` is accepted by
Go's integer parse (leading `+`), so it coerces to `Integer(42)`, while the
claim's rule (minus sign only) sends it to `String("+42")`; moreover on the
empty raw value (reachable from a token like `a=''`) the code panics while
the claim's rule would produce `String("")`. -/
theorem c1_coerce_claim_counterexample :
    coerce pU "+42" = .ok (.int 42) ∧
    coerceClaim pU "+42" = .ok (.str "+42") ∧
    (CoerceResult.ok (Value.int 42) : CoerceResult Unit) ≠ .ok (.str "+42") ∧
    coerce pU "" = .panic ∧
    coerceClaim pU "" = .ok (.str "") := by decide

/-- One-argument lines: the build is the coercion of the
`strings.Trim`-med value. -/
theorem build_single_arg {α : Type} (p : String → Except String α)
    (line name arg k v : String)
    (h1 : splitString line ' ' = [name, arg])
    (h2 : splitString arg '=' = [k, v])
    (h3 : v ≠ "") :
    buildQMPCommand p line =
      (match (coerceOut p (trimQuotes v)).1 with
       | .ok w => .ok ⟨name, insertArg emptyArgs k w⟩
       | .jsonError e => .error (.jsonError e)
       | .panic => .error .panic,
       (coerceOut p (trimQuotes v)).2) := by
  rw [build_of_tokens p h1]
  have hp : processArgs p [arg] emptyArgs [] =
      (match (coerceOut p (trimQuotes v)).1 with
       | .ok w => .ok (insertArg emptyArgs k w)
       | .jsonError e => .error (.jsonError e)
       | .panic => .error .panic,
       (coerceOut p (trimQuotes v)).2) := by
    simp only [processArgs, h2]
    rw [if_neg h3]
    rcases hco : coerceOut p (trimQuotes v) with ⟨r, o⟩
    cases r <;> simp [processArgs]
  rw [hp]
  rcases (coerceOut p (trimQuotes v)).1 with w | e | _ <;> rfl

/-- Claim C4 (amended): before coercion the value part of a `key=value`
token has ALL leading and trailing ASCII single/double quote characters
removed, independently at each end — Go `strings.Trim` semantics: no
matching requirement, arbitrarily many layers, mixed quote kinds. -/
theorem c4_trim_all_layers {α : Type} (p : String → Except String α)
    (line name arg k v : String)
    (h1 : splitString line ' ' = [name, arg])
    (h2 : splitString arg '=' = [k, v])
    (h3 : v ≠ "") :
    buildQMPCommand p line =
      (match (coerceOut p (trimQuotes v)).1 with
       | .ok w => .ok ⟨name, insertArg emptyArgs k w⟩
       | .jsonError e => .error (.jsonError e)
       | .panic => .error .panic,
       (coerceOut p (trimQuotes v)).2) :=
  build_single_arg p line name arg k v h1 h2 h3

theorem c4_trim_all_layers_witness :
    splitString "cmd a=''5''" ' ' = ["cmd", "a=''5''"] ∧
    splitString "a=''5''" '=' = ["a", "''5''"] ∧
    buildQMPCommand pU "cmd a=''5''" =
      (.ok ⟨"cmd", insertArg emptyArgs "a" (Value.int 5)⟩, []) := by
  refine ⟨by decide, by decide, ?_⟩
  exact c4_trim_all_layers pU "cmd a=''5''" "cmd" "a=''5''" "a" "''5''"
    (by decide) (by decide) (by decide)

/-- Claim C4 as stated is false on the code: on the token `a=''5''` the code
strips BOTH quote layers (`strings.Trim` removes every edge quote), so the
value coerces to `Integer(5)`, while stripping exactly one matching layer
would leave `'5'`, which would coerce to `String("'5'")`. -/
theorem c4_counterexample :
    trimQuotes "''5''" = "5" ∧
    stripOneLayer "''5''" = "'5'" ∧
    ("5" : String) ≠ "'5'" ∧
    argLookup (buildQMPCommand pU "cmd a=''5''").1 "a" = some (some (Value.int 5)) ∧
    (Value.int 5 : Value Unit) ≠ Value.str "'5'" := by decide

/-- Claim C6 (amended): a line with no tokens and a line whose (first
reached) argument token does not split into two non-empty parts both fail
with the SAME fixed error `ErrBadCommandFormat` (the code does not
distinguish the two situations and the error does not carry the offending
token); in either case the result carries no command. -/
theorem c6_error_classification {α : Type} (p : String → Except String α)
    (line : String) :
    (splitString line ' ' = [] → buildQMPCommand p line = (.error .badCommandFormat, [])) ∧
    (∀ (name bad : String) (pre post : List String),
      splitString line ' ' = name :: (pre ++ bad :: post) →
      (∀ a ∈ pre, argOkB p a = true) →
      argKV bad = none →
      (buildQMPCommand p line).1 = .error .badCommandFormat) := by
  constructor
  · intro h
    unfold buildQMPCommand
    rw [h]
  · intro name bad pre post h1 hpre hbad
    rw [build_of_tokens p h1]
    obtain ⟨t, ht⟩ := processArgs_pre p pre (bad :: post) emptyArgs [] hpre
    rw [ht]
    have hstep : (processArgs p (bad :: post) (applyPre p pre emptyArgs) ([] ++ t)).1 =
        .error .badCommandFormat := by
      rcases hs : splitString bad '=' with _ | ⟨x, _ | ⟨y, _ | _⟩⟩
      · simp [processArgs, hs]
      · simp [processArgs, hs]
      · unfold argKV at hbad
        rw [hs] at hbad
        simp only at hbad
        by_cases hy : y = ""
        · simp [processArgs, hs, hy]
        · rw [if_neg hy] at hbad; cases hbad
      · simp [processArgs, hs]
    rw [hstep]

theorem c6_error_classification_witness :
    buildQMPCommand pU "" = (.error .badCommandFormat, []) ∧
    (buildQMPCommand pU "cmd oops").1 = .error .badCommandFormat := by
  refine ⟨(c6_error_classification pU "").1 (by decide), ?_⟩
  exact (c6_error_classification pU "cmd oops").2 "cmd" "oops" [] [] (by decide)
    (fun a ha => absurd ha (List.not_mem_nil a)) (by decide)

/-- Claim C6 as stated is false on the code: the empty-line failure and the
malformed-argument failure return the SAME error value (`ErrBadCommandFormat`),
so the two kinds are not distinguishable, and the error carries no token. -/
theorem c6_counterexample :
    errOf (buildQMPCommand pU "").1 = some .badCommandFormat ∧
    errOf (buildQMPCommand pU "cmd oops").1 = some .badCommandFormat ∧
    errOf (buildQMPCommand pU "").1 = errOf (buildQMPCommand pU "cmd oops").1 := by
  decide

end QmpShell
namespace QmpShell

/-! ## The `splitString` tokenizer versus the spec's state machine -/

/-- The separator predicate actually used by `splitString`'s closure. -/
def sepPred (sep : Char) : Char → Bool :=
  fun c => if sep = ' ' then goIsSpace c else c = sep

/-- State correspondence between the closure's `lastQuote` and the spec's
tokenizer state. -/
def stOf : Option Char → TkState
  | none => .normal
  | some q => .insideQuote q

theorem splitAux_eq_specTok (sep : Char) :
    ∀ (l : List Char) (q : Option Char) (acc : List Char),
      splitAux sep q l acc = specTokAux (sepPred sep) (stOf q) l acc.reverse
  | [], q, acc => by
    cases q <;> simp only [splitAux, specTokAux, stOf, List.reverse_eq_nil_iff]
  | c :: rest, some q, acc => by
    simp only [splitAux, specTokAux, stOf]
    by_cases hc : c = q
    · rw [if_pos hc, if_pos hc, splitAux_eq_specTok sep rest none (c :: acc)]
      simp [stOf, hc]
    · rw [if_neg hc, if_neg hc, splitAux_eq_specTok sep rest (some q) (c :: acc)]
      simp [stOf]
  | c :: rest, none, acc => by
    simp only [splitAux, specTokAux, stOf]
    by_cases hq : isQuotationMark c = true
    · rw [if_pos hq, if_pos hq, splitAux_eq_specTok sep rest (some c) (c :: acc)]
      simp [stOf]
    · rw [if_neg hq, if_neg hq]
      by_cases hsep : (if sep = ' ' then goIsSpace c else c = sep) = true
      · rw [if_pos hsep, if_pos (show sepPred sep c = true from hsep)]
        by_cases ha : acc = []
        · rw [if_pos ha, if_pos (by simp [ha]), splitAux_eq_specTok sep rest none []]
          rfl
        · rw [if_neg ha, if_neg (by simp [ha]), splitAux_eq_specTok sep rest none []]
          rfl
      · rw [if_neg hsep, if_neg (show ¬sepPred sep c = true from hsep),
          splitAux_eq_specTok sep rest none (c :: acc)]
        simp [stOf]

/-- Claim C5 (amended): the tokenizer implements exactly the spec-§4.1 state
machine, but with separator PREDICATES: when called with separator `=` a
token ends exactly at `=` characters, while when called with separator
space a token ends at EVERY Unicode whitespace character (Go
`unicode.IsSpace`), not only at characters equal to the space character;
the quoting rule is the same state machine in both uses. -/
theorem c5_tokenizer_rule (s : String) :
    splitString s ' ' = specTokenize goIsSpace s ∧
    splitString s '=' = specTokenize (fun c => c = '=') s := by
  constructor
  · unfold splitString specTokenize
    rw [splitAux_eq_specTok ' ' s.data none []]
    have : sepPred ' ' = goIsSpace := by
      funext c
      simp [sepPred]
    rw [this]
    rfl
  · unfold splitString specTokenize
    rw [splitAux_eq_specTok '=' s.data none []]
    have : sepPred '=' = (fun c => c = '=') := by
      funext c
      simp [sepPred]
    rw [this]
    rfl

/-- Claim C5 as stated is false on the code: with separator = space, a TAB
character also ends a token (the closure tests `unicode.IsSpace`, not
equality with the separator), so `a\tb` splits into two tokens where the
claim's "exactly at characters equal to the separator" rule keeps one. -/
theorem c5_counterexample :
    splitString "a\tb" ' ' = ["a", "b"] ∧
    splitStringClaim "a\tb" ' ' = ["a\tb"] ∧
    (["a", "b"] : List String) ≠ ["a\tb"] := by decide

end QmpShell
namespace QmpShell

/-! ## Legacy-text (HMP) wrapping -/

theorem splitAux_quoted (sep q : Char) :
    ∀ (l rest acc : List Char), (∀ c ∈ l, c ≠ q) →
      splitAux sep (some q) (l ++ rest) acc =
        splitAux sep (some q) rest (l.reverse ++ acc)
  | [], rest, acc, _ => by simp
  | c :: l, rest, acc, h => by
    have hc : c ≠ q := h c (List.mem_cons_self c l)
    have hstep : splitAux sep (some q) ((c :: l) ++ rest) acc =
        splitAux sep (some q) (l ++ rest) (c :: acc) := by
      simp only [List.cons_append, splitAux, if_neg hc]
      all_goals rfl
    rw [hstep,
      splitAux_quoted sep q l rest (c :: acc) (fun d hd => h d (List.mem_cons_of_mem c hd))]
    simp

theorem splitAux_wrap_prefix_space (tail : List Char) :
    splitAux ' ' none ("human-monitor-command command-line='".data ++ tail) [] =
      "human-monitor-command".data ::
        splitAux ' ' (some '\'') tail ("command-line='".data.reverse) := rfl

theorem splitAux_wrap_prefix_eq (tail : List Char) :
    splitAux '=' none ("command-line='".data ++ tail) [] =
      "command-line".data :: splitAux '=' (some '\'') tail ['\''] := rfl

theorem splitAux_close_quote (sep q : Char) (acc : List Char) :
    splitAux sep (some q) [q] acc = [(q :: acc).reverse] := by
  simp [splitAux]

theorem data_append (a b : String) : (a ++ b).data = a.data ++ b.data := by
  cases a; cases b; rfl

theorem hmpWrap_data (line : String) :
    (hmpWrap line).data =
      "human-monitor-command command-line='".data ++ (line.data ++ ['\'']) := by
  unfold hmpWrap
  rw [data_append, data_append]
  simp only [List.append_assoc]

theorem hmp_space_split (line : String) (h : '\'' ∉ line.data) :
    splitString (hmpWrap line) ' ' =
      ["human-monitor-command", ⟨"command-line='".data ++ line.data ++ ['\'']⟩] := by
  unfold splitString
  rw [hmpWrap_data, splitAux_wrap_prefix_space,
    splitAux_quoted ' ' '\'' line.data ['\''] _ (fun c hc he => h (he ▸ hc)),
    splitAux_close_quote]
  all_goals simp

theorem hmp_eq_split (line : String) (h : '\'' ∉ line.data) :
    splitString ⟨"command-line='".data ++ line.data ++ ['\'']⟩ '=' =
      ["command-line", ⟨'\'' :: (line.data ++ ['\''])⟩] := by
  unfold splitString
  show (splitAux '=' none ("command-line='".data ++ (line.data ++ ['\''])) []).map _ = _
  rw [splitAux_wrap_prefix_eq,
    splitAux_quoted '=' '\'' line.data ['\''] _ (fun c hc he => h (he ▸ hc)),
    splitAux_close_quote]
  all_goals simp

end QmpShell
namespace QmpShell

theorem trim_wrap (line : String) (h1 : line.data ≠ [])
    (hh : isCutQuote (line.data.headD ' ') = false)
    (hl : isCutQuote (line.data.getLastD ' ') = false) :
    trimQuotes ⟨'\'' :: (line.data ++ ['\''])⟩ = line := by
  rcases hd : line.data with _ | ⟨c, cs⟩
  · exact absurd hd h1
  · rw [hd] at hh hl
    simp only [List.headD_cons] at hh
    unfold trimQuotes
    show String.mk (((('\'' :: ((c :: cs) ++ ['\''])).dropWhile
      isCutQuote).reverse.dropWhile isCutQuote).reverse) = line
    have hdrop1 : ('\'' :: ((c :: cs) ++ ['\''])).dropWhile isCutQuote =
        (c :: cs) ++ ['\''] := by
      rw [List.dropWhile_cons, if_pos (by decide), List.cons_append,
        List.dropWhile_cons, if_neg (by simp [hh])]
    rw [hdrop1, List.reverse_append]
    show String.mk ((('\'' :: (c :: cs).reverse).dropWhile isCutQuote).reverse) = line
    rw [List.dropWhile_cons, if_pos (by decide)]
    rcases hr : (c :: cs).reverse with _ | ⟨d, ds⟩
    · exact absurd hr (by simp)
    · have hdlast : (c :: cs).getLastD ' ' = d := by
        have hhead := List.head?_reverse (c :: cs)
        rw [hr] at hhead
        simp only [List.head?_cons] at hhead
        rw [List.getLastD_eq_getLast?, ← hhead]
        rfl
      rw [hdlast] at hl
      rw [List.dropWhile_cons, if_neg (by simp [hl])]
      rw [← hr, List.reverse_reverse]
      cases line
      exact congrArg String.mk hd.symm

/-- Claim C3 (amended): in legacy-text (HMP) mode the submitted line `L` is
interpolated into `human-monitor-command command-line='L'` and then built by
the ORDINARY builder.  When `L` is non-empty, contains no ASCII single
quote, and neither starts nor ends with an ASCII quote character, the built
command has name `human-monitor-command` and exactly one argument
`command-line` whose value is the ordinary COERCION of `L` — it is the
String variant holding `L` verbatim only when no earlier coercion rule
(boolean / structured / integer) fires on `L`. -/
theorem c3_hmp_wrap {α : Type} (p : String → Except String α) (line : String)
    (h1 : line.data ≠ [])
    (h2 : '\'' ∉ line.data)
    (h3 : isCutQuote (line.data.headD ' ') = false)
    (h4 : isCutQuote (line.data.getLastD ' ') = false) :
    buildHMP p line =
      (match (coerceOut p line).1 with
       | .ok w => .ok ⟨"human-monitor-command", insertArg emptyArgs "command-line" w⟩
       | .jsonError e => .error (.jsonError e)
       | .panic => .error .panic,
       (coerceOut p line).2) := by
  unfold buildHMP
  have hv : (⟨'\'' :: (line.data ++ ['\''])⟩ : String) ≠ "" := by
    intro he
    cases congrArg String.data he
  rw [build_single_arg p (hmpWrap line) "human-monitor-command"
    ⟨"command-line='".data ++ line.data ++ ['\'']⟩ "command-line"
    ⟨'\'' :: (line.data ++ ['\''])⟩
    (hmp_space_split line h2) (hmp_eq_split line h2) hv,
    trim_wrap line h1 h3 h4]

theorem c3_hmp_wrap_witness :
    ("info balloon" : String).data ≠ [] ∧
    '\'' ∉ ("info balloon" : String).data ∧
    buildHMP pU "info balloon" =
      (.ok ⟨"human-monitor-command",
        insertArg emptyArgs "command-line" (Value.str "info balloon")⟩, []) := by
  refine ⟨by decide, by decide, ?_⟩
  exact c3_hmp_wrap pU "info balloon" (by decide) (by decide) (by decide) (by decide)

/-- Claim C3 as stated is false on the code: the HMP line `42` is forwarded
as `Integer(42)` (the wrapped value falls through the normal coercion
switch), not as the String variant holding the line; and the HMP line `x'`
is forwarded as `String("x")` — the trailing quote is eaten by the
interpolation plus `strings.Trim` — so even String-typed forwards are not
always verbatim. -/
theorem c3_counterexample :
    argLookup (buildHMP pU "42").1 "command-line" = some (some (Value.int 42)) ∧
    (Value.int 42 : Value Unit) ≠ Value.str "42" ∧
    argLookup (buildHMP pU "x'").1 "command-line" = some (some (Value.str "x")) ∧
    ("x" : String) ≠ "x'" := by decide

end QmpShell
namespace QmpShell

/-- Claim C7 (amended): whenever the HMP completion-vocabulary builder
completes (no runtime panic while parsing), the resulting index is sorted in
Go string order — but it is NOT deduplicated: duplicate entries are kept
(the code appends and sorts, with no uniqueness pass). -/
theorem c7_index_sorted (cr sr : String) (l : List String)
    (h : buildHMPCmdList cr sr = some l) : List.Sorted goLe l := by
  unfold buildHMPCmdList at h
  rcases hm : ((splitCRLF cr.data).map (fun l => cmdListLineEntries ⟨l⟩)).mapM id
    with _ | ce
  · rw [hm] at h
    cases h
  · rw [hm] at h
    have h' : some (List.insertionSort goLe (ce.flatten ++
        ((splitCRLF sr.data).map (fun l => statusListLineEntries ⟨l⟩)).flatten)) =
        some l := h
    injection h' with h'
    rw [← h']
    exact List.sorted_insertionSort goLe _

theorem c7_index_sorted_witness :
    buildHMPCmdList "foo" "" = some ["foo", "help foo"] ∧
    List.Sorted goLe ["foo", "help foo"] :=
  ⟨by decide, c7_index_sorted "foo" "" _ (by decide)⟩

/-- Claim C7 as stated is false on the code: the union of the two parses is
NOT deduplicated — a command listed twice in the help reply yields duplicate
completion entries. -/
theorem c7_counterexample :
    buildHMPCmdList "foo\r\nfoo" "" = some ["foo", "foo", "help foo", "help foo"] ∧
    ¬ (["foo", "foo", "help foo", "help foo"] : List String).Nodup := by decide

/-- Claim C8 (amended): on the command-list reply lines `si|singlestep`,
`info`, `help` and the status-list reply line
`balloon    Show balloon information`, the completion index is exactly
`[help, help help, help si, info Show, si]`: the alias rule picks the FIRST
alias `si` (it is longer than one character), the `info` command-list line
contributes nothing, and the status line contributes `info Show` (its
SECOND whitespace field, which in this reply text is the description word
`Show`, not `balloon`). -/
theorem c8_introspector_scenario :
    buildHMPCmdList "si|singlestep\r\ninfo\r\nhelp"
        "balloon    Show balloon information" =
      some ["help", "help help", "help si", "info Show", "si"] := by decide

/-- Claim C8 as stated is false on the code: the expected entries
`singlestep`, `help singlestep` and `info balloon` do not occur — the alias
rule (first alias when longer than one character) selects `si` from
`si|singlestep`, and the status parser registers the line's second field
`Show`, producing `info Show`. -/
theorem c8_counterexample :
    buildHMPCmdList "si|singlestep\r\ninfo\r\nhelp"
        "balloon    Show balloon information" =
      some ["help", "help help", "help si", "info Show", "si"] ∧
    "singlestep" ∉ ["help", "help help", "help si", "info Show", "si"] ∧
    "help singlestep" ∉ ["help", "help help", "help si", "info Show", "si"] ∧
    "info balloon" ∉ ["help", "help help", "help si", "info Show", "si"] := by decide

/-- Claim C9 (amended): the completion callback returns exactly the stored
entries that have ToLower(input) as a CASE-SENSITIVE prefix.  Hence a
case-insensitive prefix match guarantees the entry is returned only when
the entry itself is unchanged by lowercasing; an entry containing uppercase
may fail to be returned even on an exact case-insensitive match. -/
theorem c9_completer_rule (cmdlist : List String) (input n : String) :
    (n ∈ completer cmdlist input ↔
      n ∈ cmdlist ∧ (goToLower input).data.isPrefixOf n.data = true) ∧
    (goToLower n = n →
      (goToLower input).data.isPrefixOf (goToLower n).data = true →
      n ∈ cmdlist → n ∈ completer cmdlist input) := by
  constructor
  · unfold completer
    rw [List.mem_filter]
  · intro hlow hpre hmem
    unfold completer
    rw [List.mem_filter]
    rw [hlow] at hpre
    exact ⟨hmem, hpre⟩

theorem c9_completer_rule_witness :
    goToLower "info balloon" = "info balloon" ∧
    (goToLower "INFO").data.isPrefixOf (goToLower "info balloon").data = true ∧
    "info balloon" ∈ completer ["info balloon"] "INFO" := by
  refine ⟨by decide, by decide, ?_⟩
  exact (c9_completer_rule ["info balloon"] "INFO" "info balloon").2
    (by decide) (by decide) (by decide)

/-- Claim C9 as stated is false on the code: the stored entry `Info` matches
the partial input `In` case-insensitively by prefix, yet the callback
returns nothing, because only the INPUT is lowercased and the comparison
against the stored entry is case-sensitive. -/
theorem c9_counterexample :
    (goToLower "In").data.isPrefixOf (goToLower "Info").data = true ∧
    completer ["Info"] "In" = [] := by decide

end QmpShell
namespace QmpShell

/-! ## The println side effect for structured argument values -/

theorem goToLower_brace_ne {s : String} (hb : headIsBrace s = true) :
    goToLower s ≠ "true" ∧ goToLower s ≠ "false" := by
  rcases hd : s.data with _ | ⟨c, cs⟩
  · unfold headIsBrace at hb
    rw [hd] at hb
    cases hb
  · have hcb : c = '{' ∨ c = '[' := by
      unfold headIsBrace at hb
      rw [hd] at hb
      simpa using hb
    constructor <;>
      · intro he
        have hdata := congrArg String.data he
        rcases hcb with hc | hc <;> subst hc <;>
          simp [goToLower, hd, goToLowerChar] at hdata

theorem coerceOut_brace_out {α : Type} (p : String → Except String α)
    {s : String} (hb : headIsBrace s = true) : (coerceOut p s).2 = [s] := by
  obtain ⟨hnt, hnf⟩ := goToLower_brace_ne hb
  unfold coerceOut
  rw [if_neg hnt, if_neg hnf]
  rcases hd : s.data with _ | ⟨c, cs⟩
  · unfold headIsBrace at hb
    rw [hd] at hb
    cases hb
  · have hcb : c = '{' ∨ c = '[' := by
      unfold headIsBrace at hb
      rw [hd] at hb
      simpa using hb
    simp only [hd]
    rw [if_pos hcb]
    rcases p s with v | e <;> rfl

/-- Claim C10: for every argument token reached by the processing loop whose
quote-stripped value begins with `{` or `[`, `buildQMPCommand` prints that
stripped value (as one line, i.e. followed by a newline) on standard output
before attempting the structured parse — and it does so whether the parse
succeeds or fails, so command construction is not free of observable output
for structured arguments. -/
theorem c10_structured_println {α : Type} (p : String → Except String α)
    (line name arg : String) (pre post : List String) (k v : String)
    (h1 : splitString line ' ' = name :: (pre ++ arg :: post))
    (h2 : ∀ a ∈ pre, argOkB p a = true)
    (h3 : argKV arg = some (k, v))
    (h4 : headIsBrace (trimQuotes v) = true) :
    trimQuotes v ∈ (buildQMPCommand p line).2 := by
  rw [build_of_tokens p h1]
  show trimQuotes v ∈ (processArgs p (pre ++ arg :: post) emptyArgs []).2
  obtain ⟨t, ht⟩ := processArgs_pre p pre (arg :: post) emptyArgs [] h2
  rw [ht]
  obtain ⟨hs, hv⟩ := argKV_eq_some h3
  have hout2 : (coerceOut p (trimQuotes v)).2 = [trimQuotes v] :=
    coerceOut_brace_out p h4
  rcases hr : (coerceOut p (trimQuotes v)).1 with w | e | _
  · have hcoerce : coerce p (trimQuotes v) = .ok w := by rw [coerce, hr]
    rw [processArgs_cons_ok post (applyPre p pre emptyArgs) ([] ++ t) h3 hcoerce,
      hout2]
    obtain ⟨t2, ht2⟩ := processArgs_out_mono p post
      (insertArg (applyPre p pre emptyArgs) k w) (([] ++ t) ++ [trimQuotes v])
    rw [ht2]
    simp
  · have hpair : coerceOut p (trimQuotes v) = (.jsonError e, [trimQuotes v]) := by
      have hsplit : coerceOut p (trimQuotes v) =
          ((coerceOut p (trimQuotes v)).1, (coerceOut p (trimQuotes v)).2) := rfl
      rw [hsplit, hr, hout2]
    simp only [processArgs, hs]
    rw [if_neg hv, hpair]
    simp
  · have hpair : coerceOut p (trimQuotes v) = (.panic, [trimQuotes v]) := by
      have hsplit : coerceOut p (trimQuotes v) =
          ((coerceOut p (trimQuotes v)).1, (coerceOut p (trimQuotes v)).2) := rfl
      rw [hsplit, hr, hout2]
    simp only [processArgs, hs]
    rw [if_neg hv, hpair]
    simp

theorem c10_structured_println_witness :
    splitString "cmd a=[1" ' ' = ["cmd", "a=[1"] ∧
    argKV "a=[1" = some ("a", "[1") ∧
    headIsBrace (trimQuotes "[1") = true ∧
    "[1" ∈ (buildQMPCommand pU "cmd a=[1").2 := by
  refine ⟨by decide, by decide, by decide, ?_⟩
  exact c10_structured_println pU "cmd a=[1" "cmd" "a=[1" [] [] "a" "[1"
    (by decide) (fun a ha => absurd ha (List.not_mem_nil a)) (by decide) (by decide)

end QmpShell
